import Mathlib

/-!
Shallow embedding of `src/ris/rr_set_generator.py` (RIS influence-maximization
core): edge-probability table, Independent Cascade / Linear Threshold reverse
sampling kernels, the sequential and pool-based dispatch of `generate_rr_sets`,
and the query functions `estimate_influence_spread`, `get_node_coverage`,
`get_statistics`.

Modelling conventions:
* node identifiers are `Nat` (the spec restricts them to small non-negative
  integers);
* Python floats are modelled as `Rat`;
* the numpy global pseudo-random generator is modelled as an abstract
  deterministic `RandomLib` over a `Nat` state, threaded explicitly; seeding
  replaces the current state, exactly as `np.random.seed` does;
* fallible Python code is modelled with `Except` / `Option`.
-/

set_option maxHeartbeats 1000000
set_option linter.unusedVariables false

namespace RIS

/-- The numeric edge attributes read by the generator: `influence_prob` and
`weight`, each possibly absent. -/
structure EdgeData where
  influence_prob : Option Rat
  weight : Option Rat
deriving DecidableEq, Repr

/-- A `networkx.DiGraph`: a node list plus a directed edge list with
attribute data. -/
structure Graph where
  nodes : List Nat
  edges : List (Nat × Nat × EdgeData)
deriving DecidableEq, Repr

/-- `graph.predecessors(c)`: sources of the edges whose target is `c`. -/
def Graph.predecessors (g : Graph) (c : Nat) : List Nat :=
  (g.edges.filter (fun e => e.2.1 = c)).map (fun e => e.1)

/-- In a `networkx` graph every edge endpoint is also a node of the graph;
this well-formedness fact is not re-established by the generator, so it is an
explicit hypothesis where needed. -/
def Graph.EdgesClosed (g : Graph) : Prop :=
  ∀ e ∈ g.edges, e.1 ∈ g.nodes ∧ e.2.1 ∈ g.nodes

instance (g : Graph) : Decidable g.EdgesClosed := by
  unfold Graph.EdgesClosed; infer_instance

/-- Deterministic stand-in for the numpy global random generator: a state is a
natural number; `seedFn` is `np.random.seed`, `nextUnit` is
`np.random.random()` (one uniform draw), `nextInt b` is `np.random.randint(0, b)`
composed with `np.random.choice`'s index draw. -/
structure RandomLib where
  seedFn : Nat → Nat
  nextUnit : Nat → Rat × Nat
  nextInt : Nat → Nat → Nat × Nat

/-- The `RRSet` dataclass: a node set, a root node and a size field. -/
structure RRSet where
  nodes : Finset Nat
  root_node : Nat
  size : Nat
deriving DecidableEq

/-- Dataclass construction: `__post_init__` overwrites the `size` argument with
`len(self.nodes)`, whatever value was passed in. -/
def RRSet.make (nodes : Finset Nat) (root_node : Nat) (size : Nat) : RRSet :=
  { nodes := nodes, root_node := root_node, size := nodes.card }

/-- `min(max(prob, 0.0), 1.0)` from `_precompute_edge_probabilities`. -/
def clampProb (p : Rat) : Rat := min (max p 0) 1

/-- `_precompute_edge_probabilities`: for every edge `(u, v, data)` store
`data.get('influence_prob', data.get('weight', 0.1))` clamped to `[0, 1]`,
keyed by `(u, v)`. -/
def precompute_edge_probabilities (g : Graph) : List ((Nat × Nat) × Rat) :=
  g.edges.map (fun e =>
    ((e.1, e.2.1), clampProb (e.2.2.influence_prob.getD (e.2.2.weight.getD (1/10)))))

/-- `self._edge_probs.get((u, v), 0.1)`: dictionary lookup with default. -/
def edgeProbLookup (tbl : List ((Nat × Nat) × Rat)) (u v : Nat) : Rat :=
  ((tbl.lookup (u, v)).getD (1/10))

/-- The inner `for predecessor in self.graph.predecessors(current)` loop of the
IC kernel, threading `(visited, queue, rng-state)`.  The uniform draw happens
only when the predecessor is not yet visited (`and` short-circuits in the
source). -/
def icVisitPreds (tbl : List ((Nat × Nat) × Rat)) (lib : RandomLib) (current : Nat) :
    List Nat → Finset Nat × List Nat × Nat → Finset Nat × List Nat × Nat
  | [], st => st
  | p :: ps, (v, q, s) =>
    if p ∈ v then
      icVisitPreds tbl lib current ps (v, q, s)
    else
      let d := lib.nextUnit s
      if d.1 < edgeProbLookup tbl p current then
        icVisitPreds tbl lib current ps (insert p v, q ++ [p], d.2)
      else
        icVisitPreds tbl lib current ps (v, q, d.2)

/-- Every node that can ever enter the visited set or the queue: graph nodes
together with all edge sources. Used only to justify termination of the
reverse BFS. -/
def Graph.nodeUniverse (g : Graph) : Finset Nat :=
  g.nodes.toFinset ∪ (g.edges.map (fun e => e.1)).toFinset

/-- Termination measure for the reverse BFS `while queue:` loop. -/
def icMeasure (g : Graph) (v : Finset Nat) (q : List Nat) : Nat :=
  2 * ((g.nodeUniverse \ v).card) + q.length

theorem icVisitPreds_measure (g : Graph) (tbl : List ((Nat × Nat) × Rat))
    (lib : RandomLib) (current : Nat) :
    ∀ (ps : List Nat) (v : Finset Nat) (q : List Nat) (s : Nat),
      (∀ p ∈ ps, p ∈ g.nodeUniverse) →
      icMeasure g (icVisitPreds tbl lib current ps (v, q, s)).1
          (icVisitPreds tbl lib current ps (v, q, s)).2.1 ≤ icMeasure g v q := by
  intro ps
  induction ps with
  | nil => intro v q s _; simp [icVisitPreds]
  | cons p ps ih =>
    intro v q s hmem
    have hps : ∀ x ∈ ps, x ∈ g.nodeUniverse := fun x hx => hmem x (List.mem_cons_of_mem _ hx)
    by_cases hv : p ∈ v
    · simpa [icVisitPreds, hv] using ih v q s hps
    · have hp : p ∈ g.nodeUniverse := hmem p (List.mem_cons_self _ _)
      by_cases hd : (lib.nextUnit s).1 < edgeProbLookup tbl p current
      · have hcard : (g.nodeUniverse \ insert p v).card + 1 = (g.nodeUniverse \ v).card := by
          have hpd : p ∈ g.nodeUniverse \ v := Finset.mem_sdiff.mpr ⟨hp, hv⟩
          rw [Finset.sdiff_insert]
          exact Finset.card_erase_add_one hpd
        have h1 := ih (insert p v) (q ++ [p]) (lib.nextUnit s).2 hps
        have h2 : icMeasure g (insert p v) (q ++ [p]) + 1 = icMeasure g v q := by
          unfold icMeasure
          simp only [List.length_append, List.length_singleton]
          omega
        simp only [icVisitPreds, hv, hd, if_true, if_false]
        omega
      · have h1 := ih v q (lib.nextUnit s).2 hps
        simp only [icVisitPreds, hv, hd, if_true, if_false]
        omega

theorem predecessors_mem_universe (g : Graph) (c : Nat) :
    ∀ p ∈ g.predecessors c, p ∈ g.nodeUniverse := by
  intro p hp
  unfold Graph.predecessors at hp
  rcases List.mem_map.mp hp with ⟨e, he, rfl⟩
  have he' := (List.mem_filter.mp he).1
  unfold Graph.nodeUniverse
  exact Finset.mem_union_right _ (List.mem_toFinset.mpr (List.mem_map.mpr ⟨e, he', rfl⟩))

/-- The `while queue:` loop of `_generate_single_rr_set_ic`: pop the frontier
in FIFO order, examine the popped node's predecessors, repeat until the queue
is empty; returns the visited set and the final rng state. -/
def icLoop (g : Graph) (tbl : List ((Nat × Nat) × Rat)) (lib : RandomLib) :
    Finset Nat → List Nat → Nat → Finset Nat × Nat
  | v, [], s => (v, s)
  | v, c :: rest, s =>
    icLoop g tbl lib
      (icVisitPreds tbl lib c (g.predecessors c) (v, rest, s)).1
      (icVisitPreds tbl lib c (g.predecessors c) (v, rest, s)).2.1
      (icVisitPreds tbl lib c (g.predecessors c) (v, rest, s)).2.2
termination_by v q _ => icMeasure g v q
decreasing_by
  calc icMeasure g (icVisitPreds tbl lib c (g.predecessors c) (v, rest, s)).1
        (icVisitPreds tbl lib c (g.predecessors c) (v, rest, s)).2.1
      ≤ icMeasure g v rest :=
        icVisitPreds_measure g tbl lib c (g.predecessors c) v rest s
          (predecessors_mem_universe g c)
    _ < icMeasure g v (c :: rest) := by
        unfold icMeasure; simp only [List.length_cons]; omega

/-- `_generate_single_rr_set_ic`: re-seed the global generator with the
per-task seed (discarding the ambient state `s0`), run the reverse BFS from
`root_node`, and build the `RRSet`. Returns the RR set together with the
global rng state left behind. -/
def generate_single_rr_set_ic (g : Graph) (lib : RandomLib)
    (root_node worker_seed : Nat) (s0 : Nat) : RRSet × Nat :=
  let s1 := lib.seedFn worker_seed
  let res := icLoop g (precompute_edge_probabilities g) lib {root_node} [root_node] s1
  (RRSet.make res.1 root_node res.1.card, res.2)

/-- The inner predecessor loop of `_generate_single_rr_set_lt` — a verbatim
duplicate of the IC loop in the source. -/
def ltVisitPreds (tbl : List ((Nat × Nat) × Rat)) (lib : RandomLib) (current : Nat) :
    List Nat → Finset Nat × List Nat × Nat → Finset Nat × List Nat × Nat
  | [], st => st
  | p :: ps, (v, q, s) =>
    if p ∈ v then
      ltVisitPreds tbl lib current ps (v, q, s)
    else
      let d := lib.nextUnit s
      if d.1 < edgeProbLookup tbl p current then
        ltVisitPreds tbl lib current ps (insert p v, q ++ [p], d.2)
      else
        ltVisitPreds tbl lib current ps (v, q, d.2)

theorem ltVisitPreds_eq_icVisitPreds (tbl : List ((Nat × Nat) × Rat))
    (lib : RandomLib) (current : Nat) :
    ∀ (ps : List Nat) (st : Finset Nat × List Nat × Nat),
      ltVisitPreds tbl lib current ps st = icVisitPreds tbl lib current ps st := by
  intro ps
  induction ps with
  | nil => intro st; rfl
  | cons p ps ih =>
    rintro ⟨v, q, s⟩
    by_cases hv : p ∈ v
    · simp only [ltVisitPreds, icVisitPreds, hv, if_true]; exact ih _
    · by_cases hd : (lib.nextUnit s).1 < edgeProbLookup tbl p current
      · simp only [ltVisitPreds, icVisitPreds, hv, hd, if_true, if_false]; exact ih _
      · simp only [ltVisitPreds, icVisitPreds, hv, hd, if_true, if_false]; exact ih _

/-- The `while queue:` loop of `_generate_single_rr_set_lt` — a verbatim
duplicate of the IC loop in the source. -/
def ltLoop (g : Graph) (tbl : List ((Nat × Nat) × Rat)) (lib : RandomLib) :
    Finset Nat → List Nat → Nat → Finset Nat × Nat
  | v, [], s => (v, s)
  | v, c :: rest, s =>
    ltLoop g tbl lib
      (ltVisitPreds tbl lib c (g.predecessors c) (v, rest, s)).1
      (ltVisitPreds tbl lib c (g.predecessors c) (v, rest, s)).2.1
      (ltVisitPreds tbl lib c (g.predecessors c) (v, rest, s)).2.2
termination_by v q _ => icMeasure g v q
decreasing_by
  rw [ltVisitPreds_eq_icVisitPreds]
  calc icMeasure g (icVisitPreds tbl lib c (g.predecessors c) (v, rest, s)).1
        (icVisitPreds tbl lib c (g.predecessors c) (v, rest, s)).2.1
      ≤ icMeasure g v rest :=
        icVisitPreds_measure g tbl lib c (g.predecessors c) v rest s
          (predecessors_mem_universe g c)
    _ < icMeasure g v (c :: rest) := by
        unfold icMeasure; simp only [List.length_cons]; omega

/-- `_generate_single_rr_set_lt`: identical to the IC kernel in the source. -/
def generate_single_rr_set_lt (g : Graph) (lib : RandomLib)
    (root_node worker_seed : Nat) (s0 : Nat) : RRSet × Nat :=
  let s1 := lib.seedFn worker_seed
  let res := ltLoop g (precompute_edge_probabilities g) lib {root_node} [root_node] s1
  (RRSet.make res.1 root_node res.1.card, res.2)

/-- The diffusion model selector, validated at generator construction. -/
inductive DiffusionModel
  | IC
  | LT
deriving DecidableEq, Repr

/-- The per-task kernel selected by `if self.diffusion_model == 'IC'`. -/
def sampleKernel (model : DiffusionModel) (g : Graph) (lib : RandomLib)
    (root_node worker_seed s0 : Nat) : RRSet × Nat :=
  match model with
  | .IC => generate_single_rr_set_ic g lib root_node worker_seed s0
  | .LT => generate_single_rr_set_lt g lib root_node worker_seed s0

/-- `np.random.randint(0, 2**31, size=theta)` drawn one value at a time. -/
def drawWorkerSeeds (lib : RandomLib) : Nat → Nat → List Nat × Nat
  | 0, s => ([], s)
  | Nat.succ n, s =>
    let d := lib.nextInt (2 ^ 31) s
    let rest := drawWorkerSeeds lib n d.2
    (d.1 :: rest.1, rest.2)

/-- `np.random.choice(self.nodes, size=theta, replace=True)`: each draw picks
an index into the node list uniformly; the index is reduced modulo the list
length, which is `np.random.choice`'s contract of an in-range index. -/
def drawRootNodes (g : Graph) (lib : RandomLib) : Nat → Nat → List Nat × Nat
  | 0, s => ([], s)
  | Nat.succ n, s =>
    let d := lib.nextInt g.nodes.length s
    let rest := drawRootNodes g lib n d.2
    (g.nodes.getD (d.1 % g.nodes.length) 0 :: rest.1, rest.2)

/-- Lines 168–175 of `generate_rr_sets`: seed the master stream from the
configured seed, draw `theta` worker seeds, then `theta` root nodes, and zip
them into the task list. Returns the tasks and the master stream state after
the draws. -/
def masterDraws (g : Graph) (lib : RandomLib) (random_seed theta : Nat) :
    List (Nat × Nat) × Nat :=
  let s1 := lib.seedFn random_seed
  let seeds := drawWorkerSeeds lib theta s1
  let roots := drawRootNodes g lib theta seeds.2
  (roots.1.zip seeds.1, roots.2)

/-- The value `generate_rr_sets` produces when it returns: the collected RR
sets, the root nodes logged by the per-future error handler (empty in the
sequential branch, which has no handler), and the global rng state. -/
structure GenResult where
  rr_sets : List RRSet
  logged_roots : List Nat
  rng_state : Nat
deriving DecidableEq

/-- The `parallel_workers == 1` branch (lines 179–186): run each task on the
calling thread, in task order, with no exception handler — a raising task
propagates immediately. -/
def runSequential (sampler : Nat → Nat → Nat → Except String (RRSet × Nat)) :
    List (Nat × Nat) → Nat → Except String (List RRSet × Nat)
  | [], s => .ok ([], s)
  | t :: ts, s =>
    match sampler t.1 t.2 s with
    | .error e => .error e
    | .ok res =>
      match runSequential sampler ts res.2 with
      | .error e => .error e
      | .ok rest => .ok (res.1 :: rest.1, rest.2)

/-- The multi-worker branch (lines 188–207): every task runs in a worker
process that starts from a copy `s` of the parent's rng state; results are
collected with a per-future `try/except` that keeps successes and logs the
root node of each failure. (`as_completed` may deliver futures in any order;
the model fixes submission order, which the claims — about membership, not
order — do not depend on.) -/
def runParallel (sampler : Nat → Nat → Nat → Except String (RRSet × Nat)) (s : Nat) :
    List (Nat × Nat) → List RRSet × List Nat
  | [] => ([], [])
  | t :: ts =>
    let rest := runParallel sampler s ts
    match sampler t.1 t.2 s with
    | .ok res => (res.1 :: rest.1, rest.2)
    | .error _ => (rest.1, t.1 :: rest.2)

/-- `generate_rr_sets(theta)` with the per-task sampling function abstracted,
so that the dispatch-and-collect structure can be studied for an arbitrary
(possibly raising) kernel. `np.random.choice` raises on an empty node list. -/
def generate_rr_sets_with (g : Graph) (lib : RandomLib)
    (sampler : Nat → Nat → Nat → Except String (RRSet × Nat))
    (parallel_workers random_seed theta : Nat) (s0 : Nat) :
    Except String GenResult :=
  if g.nodes.isEmpty then .error "a must be non-empty"
  else
    let md := masterDraws g lib random_seed theta
    if parallel_workers = 1 then
      match runSequential sampler md.1 md.2 with
      | .error e => .error e
      | .ok res => .ok ⟨res.1, [], res.2⟩
    else
      let res := runParallel sampler md.2 md.1
      .ok ⟨res.1, res.2, md.2⟩

/-- `generate_rr_sets(theta)` with the actual (non-raising) kernels of the
source. -/
def generate_rr_sets (g : Graph) (lib : RandomLib) (model : DiffusionModel)
    (parallel_workers random_seed theta s0 : Nat) : Except String GenResult :=
  generate_rr_sets_with g lib
    (fun root seed s => .ok (sampleKernel model g lib root seed s))
    parallel_workers random_seed theta s0

/-- The RR-set pool a `generate_rr_sets` call hands to its caller (empty if
the call raised). -/
def genPool (g : Graph) (lib : RandomLib) (model : DiffusionModel)
    (parallel_workers random_seed theta s0 : Nat) : List RRSet :=
  match generate_rr_sets g lib model parallel_workers random_seed theta s0 with
  | .ok res => res.rr_sets
  | .error _ => []

/-- `estimate_influence_spread(seed_set, rr_sets)`. -/
def estimate_influence_spread (g : Graph) (seed_set : Finset Nat)
    (rr_sets : List RRSet) : Rat :=
  if rr_sets.isEmpty then 0
  else
    ((rr_sets.countP (fun r => (r.nodes ∩ seed_set).Nonempty) : Rat) /
      (rr_sets.length : Rat)) * (g.nodes.length : Rat)

/-- `coverage[node] += 1`: increment the value stored at an existing key of
the dictionary; a missing key is a `KeyError`. -/
def incKey (k : Nat) : List (Nat × Nat) → Option (List (Nat × Nat))
  | [] => none
  | e :: es =>
    if e.1 = k then some ((e.1, e.2 + 1) :: es)
    else (incKey k es).map (fun es2 => e :: es2)

/-- The `for node in rr_set.nodes` loop of `get_node_coverage`. Python set
iteration order is unspecified; the counts are order-independent, and the
model iterates in sorted order. -/
def coverNodes : List Nat → List (Nat × Nat) → Option (List (Nat × Nat))
  | [], cov => some cov
  | n :: ns, cov =>
    match incKey n cov with
    | none => none
    | some cov2 => coverNodes ns cov2

/-- The `for rr_set in rr_sets` loop of `get_node_coverage`. -/
def coverRRSets : List RRSet → List (Nat × Nat) → Option (List (Nat × Nat))
  | [], cov => some cov
  | r :: rs, cov =>
    match coverNodes (r.nodes.sort (· ≤ ·)) cov with
    | none => none
    | some cov2 => coverRRSets rs cov2

/-- `get_node_coverage(rr_sets)`: initialize every graph node's count to 0,
then increment per occurrence; `none` models the `KeyError` raised when an RR
set mentions a node outside the graph. -/
def get_node_coverage (g : Graph) (rr_sets : List RRSet) :
    Option (List (Nat × Nat)) :=
  coverRRSets rr_sets (g.nodes.map (fun n => (n, 0)))

/-- The statistics dictionary of `get_statistics` on a non-empty pool.
`np.std` is the square root of the variance, which is irrational in general;
the record stores the variance, which determines it. -/
structure RRStatistics where
  total_rr_sets : Nat
  avg_rr_set_size : Rat
  var_rr_set_size : Rat
  min_rr_set_size : Nat
  max_rr_set_size : Nat
  total_nodes_covered : Nat
deriving DecidableEq, Repr

/-- `get_statistics(rr_sets)`: the empty dictionary (`none`) for an empty
pool, otherwise descriptive statistics of the size fields. -/
def get_statistics (rr_sets : List RRSet) : Option RRStatistics :=
  match rr_sets with
  | [] => none
  | r :: rs =>
    let sizes := (r :: rs).map (fun x => x.size)
    let n : Rat := sizes.length
    let mean : Rat := ((sizes.map (fun x => (x : Rat))).foldl (· + ·) 0) / n
    some
      { total_rr_sets := sizes.length
        avg_rr_set_size := mean
        var_rr_set_size :=
          ((sizes.map (fun x => ((x : Rat) - mean) ^ 2)).foldl (· + ·) 0) / n
        min_rr_set_size := rs.foldl (fun (a : Nat) (x : RRSet) => min a x.size) r.size
        max_rr_set_size := rs.foldl (fun (a : Nat) (x : RRSet) => max a x.size) r.size
        total_nodes_covered :=
          ((r :: rs).foldl (fun (acc : Finset Nat) (x : RRSet) => acc ∪ x.nodes) ∅).card }

/-! ### Concrete fixtures (the unit-test graph of the repository) -/

/-- The four-node test graph from `tests/test_rr_set_generator.py`. -/
def exGraph : Graph :=
  { nodes := [0, 1, 2, 3]
    edges :=
      [ (0, 1, { influence_prob := some (1/10), weight := none }),
        (1, 2, { influence_prob := some (1/5), weight := none }),
        (0, 2, { influence_prob := some (3/20), weight := none }),
        (2, 3, { influence_prob := some (1/10), weight := none }) ] }

/-- A concrete instance of the abstract random generator. -/
def exLib : RandomLib :=
  { seedFn := fun n => n
    nextUnit := fun s => (1/2, s + 1)
    nextInt := fun _ s => (0, s + 1) }

/-- A small concrete RR-set pool over `exGraph`. -/
def exPool : List RRSet :=
  [RRSet.make {0, 1} 0 2, RRSet.make {2} 2 1, RRSet.make {2, 3} 3 2]

/-- A per-task sampler that always raises. -/
def failSampler : Nat → Nat → Nat → Except String (RRSet × Nat) :=
  fun _ _ _ => .error "boom"

/-! ### Claim theorems -/

/-- C2: `estimate_influence_spread` returns 0 on an empty pool, otherwise
`(number of RR sets intersecting the seed set) / pool size * number of graph
nodes`, and the result always lies in `[0, totalGraphNodes]`. -/
theorem claim_C2_estimate_spread_formula_and_range (g : Graph) (S : Finset Nat)
    (pool : List RRSet) :
    (pool = [] → estimate_influence_spread g S pool = 0) ∧
    (pool ≠ [] →
      estimate_influence_spread g S pool =
        ((pool.countP (fun r => (r.nodes ∩ S).Nonempty) : Rat) /
          (pool.length : Rat)) * (g.nodes.length : Rat)) ∧
    0 ≤ estimate_influence_spread g S pool ∧
    estimate_influence_spread g S pool ≤ (g.nodes.length : Rat) := by
  by_cases hp : pool = []
  · subst hp
    refine ⟨fun _ => by simp [estimate_influence_spread], fun h => absurd rfl h, ?_, ?_⟩
    · simp [estimate_influence_spread]
    · simp [estimate_influence_spread]
  · have hne : pool.isEmpty = false := by
      cases pool with
      | nil => exact absurd rfl hp
      | cons a l => rfl
    have hform : estimate_influence_spread g S pool =
        ((pool.countP (fun r => (r.nodes ∩ S).Nonempty) : Rat) /
          (pool.length : Rat)) * (g.nodes.length : Rat) := by
      unfold estimate_influence_spread
      rw [hne]
      rfl
    have hlen : (0 : Rat) < (pool.length : Rat) := by
      have : 0 < pool.length := List.length_pos.mpr hp
      exact_mod_cast this
    have hcount : ((pool.countP (fun r => (r.nodes ∩ S).Nonempty) : Rat)) ≤
        (pool.length : Rat) := by
      exact_mod_cast List.countP_le_length _
    have hdiv0 : (0 : Rat) ≤
        (pool.countP (fun r => (r.nodes ∩ S).Nonempty) : Rat) / (pool.length : Rat) :=
      div_nonneg (Nat.cast_nonneg _) (Nat.cast_nonneg _)
    have hdiv1 : (pool.countP (fun r => (r.nodes ∩ S).Nonempty) : Rat) /
        (pool.length : Rat) ≤ 1 := (div_le_one hlen).mpr hcount
    refine ⟨fun h => absurd h hp, fun _ => hform, ?_, ?_⟩
    · rw [hform]
      exact mul_nonneg hdiv0 (Nat.cast_nonneg _)
    · rw [hform]
      calc _ ≤ 1 * (g.nodes.length : Rat) :=
            mul_le_mul_of_nonneg_right hdiv1 (Nat.cast_nonneg _)
        _ = (g.nodes.length : Rat) := one_mul _

/-- Witness for C2 at a concrete input. -/
theorem claim_C2_witness :
    (exPool ≠ [] →
      estimate_influence_spread exGraph {0} exPool =
        ((exPool.countP (fun r => (r.nodes ∩ {0}).Nonempty) : Rat) /
          (exPool.length : Rat)) * (exGraph.nodes.length : Rat)) ∧
    0 ≤ estimate_influence_spread exGraph {0} exPool ∧
    estimate_influence_spread exGraph {0} exPool ≤ (exGraph.nodes.length : Rat) :=
  ⟨(claim_C2_estimate_spread_formula_and_range exGraph {0} exPool).2.1,
   (claim_C2_estimate_spread_formula_and_range exGraph {0} exPool).2.2⟩

/-- C9: for a fixed pool, adding a node to the seed set never decreases the
estimated influence spread. -/
theorem claim_C9_estimate_spread_monotone (g : Graph) (pool : List RRSet)
    (S : Finset Nat) (x : Nat) (hx : x ∉ S) :
    estimate_influence_spread g S pool ≤
      estimate_influence_spread g (insert x S) pool := by
  by_cases hp : pool.isEmpty
  · unfold estimate_influence_spread
    rw [hp]
    simp
  · have hne : pool.isEmpty = false := by
      cases h : pool.isEmpty with
      | false => rfl
      | true => exact absurd h hp
    unfold estimate_influence_spread
    rw [hne]
    simp only [Bool.false_eq_true, if_false]
    apply mul_le_mul_of_nonneg_right _ (Nat.cast_nonneg _)
    have hlen : (0 : Rat) < (pool.length : Rat) := by
      have hnil : pool ≠ [] := by
        cases pool with
        | nil => simp at hne
        | cons a l => exact List.cons_ne_nil a l
      have : 0 < pool.length := List.length_pos.mpr hnil
      exact_mod_cast this
    rw [div_le_div_iff_of_pos_right hlen]
    have hmono : pool.countP (fun r => (r.nodes ∩ S).Nonempty) ≤
        pool.countP (fun r => (r.nodes ∩ insert x S).Nonempty) := by
      apply List.countP_mono_left
      intro r hr h
      have h1 : (r.nodes ∩ S).Nonempty := of_decide_eq_true h
      have h2 : (r.nodes ∩ insert x S).Nonempty :=
        h1.mono (Finset.inter_subset_inter (Finset.Subset.refl _)
          (Finset.subset_insert x S))
      exact decide_eq_true h2
    exact_mod_cast hmono

/-- Witness for C9 at a concrete input. -/
theorem claim_C9_witness :
    (1 : Nat) ∉ ({0} : Finset Nat) ∧
    estimate_influence_spread exGraph {0} exPool ≤
      estimate_influence_spread exGraph (insert 1 {0}) exPool :=
  ⟨by decide, claim_C9_estimate_spread_monotone exGraph exPool {0} 1 (by decide)⟩

theorem clampProb_nonneg (p : Rat) : 0 ≤ clampProb p :=
  le_min (le_max_right p 0) (by norm_num)

theorem clampProb_le_one (p : Rat) : clampProb p ≤ 1 :=
  min_le_right _ _

/-- The probability stored for an edge, as the source computes it. -/
def rawEdgeProb (d : EdgeData) : Rat :=
  d.influence_prob.getD (d.weight.getD (1/10))

theorem lookup_precompute_of_mem :
    ∀ (es : List (Nat × Nat × EdgeData)),
      (es.map (fun e => (e.1, e.2.1))).Nodup →
      ∀ u v d, (u, v, d) ∈ es →
        (es.map (fun e =>
          ((e.1, e.2.1), clampProb (rawEdgeProb e.2.2)))).lookup (u, v) =
          some (clampProb (rawEdgeProb d)) := by
  intro es
  induction es with
  | nil => intro _ u v d h; exact absurd h (List.not_mem_nil _)
  | cons e es ih =>
    intro hnd u v d hmem
    have hnd' : (es.map (fun e => (e.1, e.2.1))).Nodup := (List.nodup_cons.mp hnd).2
    rcases List.mem_cons.mp hmem with heq | htail
    · subst heq
      simp [List.lookup]
    · have hnd2 := hnd
      rw [List.map_cons] at hnd2
      have hhead := (List.nodup_cons.mp hnd2).1
      have hkey : ((u, v) == (e.1, e.2.1)) = false := by
        simp only [beq_eq_false_iff_ne, ne_eq]
        intro hk
        have hin : (u, v) ∈ es.map (fun e => (e.1, e.2.1)) :=
          List.mem_map.mpr ⟨(u, v, d), htail, rfl⟩
        rw [← hk] at hhead
        exact hhead hin
      simp only [List.map_cons, List.lookup, hkey]
      exact ih hnd' u v d htail

theorem edgeProbLookup_range :
    ∀ (es : List (Nat × Nat × EdgeData)) (u v : Nat),
      0 ≤ edgeProbLookup (es.map (fun e =>
        ((e.1, e.2.1), clampProb (rawEdgeProb e.2.2)))) u v ∧
      edgeProbLookup (es.map (fun e =>
        ((e.1, e.2.1), clampProb (rawEdgeProb e.2.2)))) u v ≤ 1 := by
  intro es
  induction es with
  | nil =>
    intro u v
    constructor <;> simp [edgeProbLookup, List.lookup] <;> norm_num
  | cons e es ih =>
    intro u v
    by_cases hk : ((u, v) == (e.1, e.2.1)) = true
    · simp only [edgeProbLookup, List.map_cons, List.lookup, hk, Option.getD_some]
      exact ⟨clampProb_nonneg _, clampProb_le_one _⟩
    · have hk' : ((u, v) == (e.1, e.2.1)) = false := by
        cases h : ((u, v) == (e.1, e.2.1)) with
        | false => rfl
        | true => exact absurd h hk
      simp only [edgeProbLookup, List.map_cons, List.lookup, hk'] at *
      exact ih u v

/-- C5: the precomputed table maps each edge `(u, v)` to the first present of
`{influence_prob, weight, 0.1}` clamped to `[0, 1]`; a lookup of a pair
absent from the table resolves to `0.1`; and every lookup result is in
`[0, 1]`. -/
theorem claim_C5_edge_prob_table (g : Graph)
    (hkeys : (g.edges.map (fun e => (e.1, e.2.1))).Nodup) :
    (∀ u v d, (u, v, d) ∈ g.edges →
      (precompute_edge_probabilities g).lookup (u, v) =
        some (clampProb (d.influence_prob.getD (d.weight.getD (1/10))))) ∧
    (∀ u v, (precompute_edge_probabilities g).lookup (u, v) = none →
      edgeProbLookup (precompute_edge_probabilities g) u v = 1/10) ∧
    (∀ u v, 0 ≤ edgeProbLookup (precompute_edge_probabilities g) u v ∧
      edgeProbLookup (precompute_edge_probabilities g) u v ≤ 1) := by
  have htbl : precompute_edge_probabilities g =
      g.edges.map (fun e => ((e.1, e.2.1), clampProb (rawEdgeProb e.2.2))) := rfl
  refine ⟨?_, ?_, ?_⟩
  · intro u v d hmem
    rw [htbl]
    exact lookup_precompute_of_mem g.edges hkeys u v d hmem
  · intro u v hnone
    unfold edgeProbLookup
    rw [hnone]
    rfl
  · intro u v
    rw [htbl]
    exact edgeProbLookup_range g.edges u v

/-- Witness for C5 at a concrete input. -/
theorem claim_C5_witness :
    (exGraph.edges.map (fun e => (e.1, e.2.1))).Nodup ∧
    (0 ≤ edgeProbLookup (precompute_edge_probabilities exGraph) 7 7 ∧
      edgeProbLookup (precompute_edge_probabilities exGraph) 7 7 ≤ 1) :=
  ⟨by decide, (claim_C5_edge_prob_table exGraph (by decide)).2.2 7 7⟩

theorem icVisitPreds_visited_mono (tbl : List ((Nat × Nat) × Rat))
    (lib : RandomLib) (current : Nat) :
    ∀ (ps : List Nat) (v : Finset Nat) (q : List Nat) (s : Nat),
      v ⊆ (icVisitPreds tbl lib current ps (v, q, s)).1 := by
  intro ps
  induction ps with
  | nil => intro v q s; simp [icVisitPreds]
  | cons p ps ih =>
    intro v q s
    by_cases hv : p ∈ v
    · simpa [icVisitPreds, hv] using ih v q s
    · by_cases hd : (lib.nextUnit s).1 < edgeProbLookup tbl p current
      · simp only [icVisitPreds, hv, hd, if_true, if_false]
        exact (Finset.subset_insert p v).trans (ih _ _ _)
      · simp only [icVisitPreds, hv, hd, if_true, if_false]
        exact ih v q _

theorem icLoop_visited_mono (g : Graph) (tbl : List ((Nat × Nat) × Rat))
    (lib : RandomLib) :
    ∀ (v : Finset Nat) (q : List Nat) (s : Nat),
      v ⊆ (icLoop g tbl lib v q s).1 := by
  intro v q s
  induction v, q, s using icLoop.induct g tbl lib with
  | case1 v s => simp [icLoop]
  | case2 v c rest s ih =>
    rw [icLoop]
    exact (icVisitPreds_visited_mono tbl lib c (g.predecessors c) v rest s).trans ih

theorem ltLoop_eq_icLoop (g : Graph) (tbl : List ((Nat × Nat) × Rat))
    (lib : RandomLib) :
    ∀ (v : Finset Nat) (q : List Nat) (s : Nat),
      ltLoop g tbl lib v q s = icLoop g tbl lib v q s := by
  intro v q s
  induction v, q, s using ltLoop.induct g tbl lib with
  | case1 v s => simp [ltLoop, icLoop]
  | case2 v c rest s ih =>
    rw [ltLoop, icLoop]
    rw [ltVisitPreds_eq_icVisitPreds] at ih ⊢
    exact ih

/-- C6: the Linear Threshold kernel is extensionally equal to the Independent
Cascade kernel — the source duplicates the coin-flip-per-edge reverse
traversal under both labels. -/
theorem claim_C6_lt_kernel_eq_ic_kernel (g : Graph) (lib : RandomLib)
    (root_node worker_seed s0 : Nat) :
    generate_single_rr_set_lt g lib root_node worker_seed s0 =
      generate_single_rr_set_ic g lib root_node worker_seed s0 := by
  unfold generate_single_rr_set_lt generate_single_rr_set_ic
  simp only [ltLoop_eq_icLoop]

/-- C7: every RR set produced by a sampling kernel contains its root node, and
its `size` field equals the cardinality of its node set. -/
theorem claim_C7_root_mem_and_size (model : DiffusionModel) (g : Graph)
    (lib : RandomLib) (root_node worker_seed s0 : Nat) :
    root_node ∈ (sampleKernel model g lib root_node worker_seed s0).1.nodes ∧
    (sampleKernel model g lib root_node worker_seed s0).1.size =
      (sampleKernel model g lib root_node worker_seed s0).1.nodes.card := by
  have hic : ∀ root seed s,
      root ∈ (generate_single_rr_set_ic g lib root seed s).1.nodes ∧
      (generate_single_rr_set_ic g lib root seed s).1.size =
        (generate_single_rr_set_ic g lib root seed s).1.nodes.card := by
    intro root seed s
    constructor
    · have := icLoop_visited_mono g (precompute_edge_probabilities g) lib
        {root} [root] (lib.seedFn seed)
      exact this (Finset.mem_singleton_self root)
    · rfl
  cases model with
  | IC => exact hic root_node worker_seed s0
  | LT =>
    have heq : sampleKernel DiffusionModel.LT g lib root_node worker_seed s0 =
        generate_single_rr_set_ic g lib root_node worker_seed s0 := by
      show generate_single_rr_set_lt g lib root_node worker_seed s0 = _
      unfold generate_single_rr_set_lt generate_single_rr_set_ic
      simp only [ltLoop_eq_icLoop]
    rw [heq]
    exact hic root_node worker_seed s0

/-- C3: with worker count 1, the generated list of RR sets is a function of
(graph, diffusion model, master seed, theta) alone: two runs that start from
arbitrary — possibly different — ambient global rng states return identical
results, because `generate_rr_sets` re-seeds the master stream from the
configured seed and each task re-seeds from its own per-task seed. -/
theorem claim_C3_sequential_determinism (g : Graph) (lib : RandomLib)
    (model : DiffusionModel) (random_seed theta s0 s1 : Nat) :
    generate_rr_sets g lib model 1 random_seed theta s0 =
      generate_rr_sets g lib model 1 random_seed theta s1 := rfl

/-- Spec-level processing of a popped node's predecessor list, written from
the spec's sentence: "for the popped node, iterate over every predecessor
edge; for each predecessor not yet visited, draw one uniform random value in
[0,1) and include the predecessor (add to visited set and enqueue) if the
draw is less than that edge's probability". -/
def specExaminePreds (tbl : List ((Nat × Nat) × Rat)) (lib : RandomLib)
    (current : Nat) (preds : List Nat) (st : Finset Nat × List Nat × Nat) :
    Finset Nat × List Nat × Nat :=
  preds.foldl (fun st p =>
    if p ∈ st.1 then st
    else
      let d := lib.nextUnit st.2.2
      if d.1 < edgeProbLookup tbl p current then (insert p st.1, st.2.1 ++ [p], d.2)
      else (st.1, st.2.1, d.2)) st

/-- Spec-level BFS transition on states (visited, FIFO frontier, rng state):
pop the head of the frontier and examine all its predecessor edges. -/
inductive SpecBfsStep (g : Graph) (tbl : List ((Nat × Nat) × Rat))
    (lib : RandomLib) :
    Finset Nat × List Nat × Nat → Finset Nat × List Nat × Nat → Prop
  | pop (v : Finset Nat) (c : Nat) (rest : List Nat) (s : Nat) :
      SpecBfsStep g tbl lib (v, c :: rest, s)
        (specExaminePreds tbl lib c (g.predecessors c) (v, rest, s))

theorem specExaminePreds_eq_icVisitPreds (tbl : List ((Nat × Nat) × Rat))
    (lib : RandomLib) (current : Nat) :
    ∀ (preds : List Nat) (st : Finset Nat × List Nat × Nat),
      specExaminePreds tbl lib current preds st =
        icVisitPreds tbl lib current preds st := by
  intro preds
  induction preds with
  | nil => intro st; rfl
  | cons p ps ih =>
    rintro ⟨v, q, s⟩
    by_cases hv : p ∈ v
    · simp only [specExaminePreds, List.foldl_cons, icVisitPreds, hv, if_true]
      exact ih (v, q, s)
    · by_cases hd : (lib.nextUnit s).1 < edgeProbLookup tbl p current
      · simp only [specExaminePreds, List.foldl_cons, icVisitPreds, hv, hd,
          if_true, if_false]
        exact ih _
      · simp only [specExaminePreds, List.foldl_cons, icVisitPreds, hv, hd,
          if_true, if_false]
        exact ih _

theorem icLoop_reaches_spec (g : Graph) (tbl : List ((Nat × Nat) × Rat))
    (lib : RandomLib) :
    ∀ (v : Finset Nat) (q : List Nat) (s : Nat),
      Relation.ReflTransGen (SpecBfsStep g tbl lib) (v, q, s)
        ((icLoop g tbl lib v q s).1, [], (icLoop g tbl lib v q s).2) := by
  intro v q s
  induction v, q, s using icLoop.induct g tbl lib with
  | case1 v s =>
    rw [icLoop]
  | case2 v c rest s ih =>
    have hstep : SpecBfsStep g tbl lib (v, c :: rest, s)
        (icVisitPreds tbl lib c (g.predecessors c) (v, rest, s)) := by
      have h := @SpecBfsStep.pop g tbl lib v c rest s
      rwa [specExaminePreds_eq_icVisitPreds] at h
    rw [icLoop]
    exact Relation.ReflTransGen.head hstep ih

/-- C4: the IC kernel is a reverse breadth-first traversal in the sense of the
spec: from the initial state (visited = {root}, frontier = [root], stream
seeded from the per-task seed) the spec's FIFO pop-and-examine transition
relation reaches, in finitely many steps, a terminal state with an empty
frontier whose visited set is exactly the node set of the returned RR set. -/
theorem claim_C4_ic_kernel_follows_spec_bfs (g : Graph) (lib : RandomLib)
    (root_node worker_seed s0 : Nat) :
    ∃ vfin sfin,
      Relation.ReflTransGen (SpecBfsStep g (precompute_edge_probabilities g) lib)
        ({root_node}, [root_node], lib.seedFn worker_seed) (vfin, [], sfin) ∧
      (∀ t, ¬ SpecBfsStep g (precompute_edge_probabilities g) lib (vfin, [], sfin) t) ∧
      (generate_single_rr_set_ic g lib root_node worker_seed s0).1.nodes = vfin ∧
      (generate_single_rr_set_ic g lib root_node worker_seed s0).2 = sfin := by
  refine ⟨(icLoop g (precompute_edge_probabilities g) lib {root_node} [root_node]
      (lib.seedFn worker_seed)).1,
    (icLoop g (precompute_edge_probabilities g) lib {root_node} [root_node]
      (lib.seedFn worker_seed)).2,
    icLoop_reaches_spec g (precompute_edge_probabilities g) lib {root_node}
      [root_node] (lib.seedFn worker_seed), ?_, rfl, rfl⟩
  intro t h
  cases h

theorem runParallel_eq_filterMap
    (sampler : Nat → Nat → Nat → Except String (RRSet × Nat)) (s : Nat) :
    ∀ ts : List (Nat × Nat),
      runParallel sampler s ts =
        (ts.filterMap (fun t => ((sampler t.1 t.2 s).toOption).map Prod.fst),
         (ts.filter (fun t => !((sampler t.1 t.2 s).toOption).isSome)).map
           Prod.fst) := by
  intro ts
  induction ts with
  | nil => rfl
  | cons t ts ih =>
    cases h : sampler t.1 t.2 s with
    | ok res =>
      simp only [runParallel, h, ih, List.filterMap_cons, List.filter_cons,
        Except.toOption, Option.map_some, Option.isSome_some, Bool.not_true]
      rfl
    | error e =>
      simp only [runParallel, h, ih, List.filterMap_cons, List.filter_cons,
        Except.toOption, Option.map_none, Option.isSome_none, Bool.not_false]
      rfl

/-- Counterexample to C1 as stated: with worker count 1 the source dispatches
tasks with no exception handler, so a raising task propagates out of
`generate_rr_sets` and aborts the whole batch. -/
theorem claim_C1_counterexample :
    generate_rr_sets_with exGraph exLib failSampler 1 42 1 0 =
      .error "boom" := rfl

/-- C1 amended: in the multi-worker branch (worker count ≠ 1) a raising task
is caught, its root node is logged, its RR set is omitted from the result,
and every other task still contributes, so the call never raises. (With
worker count = 1 there is no handler and the exception propagates.) -/
theorem claim_C1_parallel_failure_isolation (g : Graph) (lib : RandomLib)
    (sampler : Nat → Nat → Nat → Except String (RRSet × Nat))
    (parallel_workers random_seed theta s0 : Nat)
    (hw : parallel_workers ≠ 1) (hg : g.nodes ≠ []) :
    generate_rr_sets_with g lib sampler parallel_workers random_seed theta s0 =
      .ok ⟨((masterDraws g lib random_seed theta).1.filterMap
              (fun t => ((sampler t.1 t.2
                (masterDraws g lib random_seed theta).2).toOption).map Prod.fst)),
            ((masterDraws g lib random_seed theta).1.filter
              (fun t => !((sampler t.1 t.2
                (masterDraws g lib random_seed theta).2).toOption).isSome)).map
              Prod.fst,
            (masterDraws g lib random_seed theta).2⟩ := by
  have hne : g.nodes.isEmpty = false := by
    cases h : g.nodes with
    | nil => exact absurd h hg
    | cons a l => rfl
  unfold generate_rr_sets_with
  rw [hne]
  simp only [Bool.false_eq_true, if_false, if_neg hw]
  rw [runParallel_eq_filterMap]

/-- Witness for the amended C1 at a concrete input: two workers, a sampler
that always raises — nothing propagates, both failures are logged. -/
theorem claim_C1_witness :
    (2 : Nat) ≠ 1 ∧ exGraph.nodes ≠ [] ∧
    generate_rr_sets_with exGraph exLib failSampler 2 42 2 0 =
      .ok ⟨((masterDraws exGraph exLib 42 2).1.filterMap
              (fun t => ((failSampler t.1 t.2
                (masterDraws exGraph exLib 42 2).2).toOption).map Prod.fst)),
            ((masterDraws exGraph exLib 42 2).1.filter
              (fun t => !((failSampler t.1 t.2
                (masterDraws exGraph exLib 42 2).2).toOption).isSome)).map
              Prod.fst,
            (masterDraws exGraph exLib 42 2).2⟩ :=
  ⟨by decide, by decide,
   claim_C1_parallel_failure_isolation exGraph exLib failSampler 2 42 2 0
     (by decide) (by decide)⟩

/-- The number of RR sets in the pool that contain node `n`. -/
def countContaining (pool : List RRSet) (n : Nat) : Nat :=
  pool.countP (fun r => n ∈ r.nodes)

theorem incKey_map (k : Nat) :
    ∀ (ns : List Nat) (f : Nat → Nat), ns.Nodup → k ∈ ns →
      incKey k (ns.map (fun n => (n, f n))) =
        some (ns.map (fun n => (n, if n = k then f n + 1 else f n))) := by
  intro ns
  induction ns with
  | nil => intro f _ h; exact absurd h (List.not_mem_nil _)
  | cons a ns ih =>
    intro f hnd hk
    have hnotin := (List.nodup_cons.mp hnd).1
    by_cases hak : a = k
    · subst hak
      have hmap : ns.map (fun n => (n, f n)) =
          ns.map (fun n => (n, if n = a then f n + 1 else f n)) := by
        apply List.map_congr_left
        intro x hx
        have hxa : x ≠ a := fun h => hnotin (h ▸ hx)
        rw [if_neg hxa]
      simp only [List.map_cons, incKey, if_pos rfl, hmap]
      simp
    · have hk' : k ∈ ns := by
        rcases List.mem_cons.mp hk with h | h
        · exact absurd h.symm hak
        · exact h
      simp only [List.map_cons, incKey, if_neg hak,
        ih f (List.nodup_cons.mp hnd).2 hk', if_neg hak]
      simp

theorem coverNodes_map (ns : List Nat) :
    ∀ (l : List Nat) (f : Nat → Nat), ns.Nodup → l.Nodup →
      (∀ x ∈ l, x ∈ ns) →
      coverNodes l (ns.map (fun n => (n, f n))) =
        some (ns.map (fun n => (n, f n + (if n ∈ l then 1 else 0)))) := by
  intro l
  induction l with
  | nil =>
    intro f hns _ _
    have hmap : ns.map (fun n => (n, f n + (if n ∈ ([] : List Nat) then 1 else 0))) =
        ns.map (fun n => (n, f n)) := by
      apply List.map_congr_left
      intro x _
      simp
    simp only [coverNodes, hmap]
  | cons a l ih =>
    intro f hns hnd hmem
    have ha : a ∈ ns := hmem a (List.mem_cons_self _ _)
    have hal := (List.nodup_cons.mp hnd).1
    have hstep := incKey_map a ns f hns ha
    simp only [coverNodes, hstep]
    have := ih (fun n => if n = a then f n + 1 else f n) hns
      (List.nodup_cons.mp hnd).2 (fun x hx => hmem x (List.mem_cons_of_mem _ hx))
    rw [this]
    have hmap : ns.map (fun n =>
        (n, (if n = a then f n + 1 else f n) + (if n ∈ l then 1 else 0))) =
        ns.map (fun n => (n, f n + (if n ∈ a :: l then 1 else 0))) := by
      apply List.map_congr_left
      intro x _
      by_cases hxa : x = a
      · subst hxa
        have hxl : x ∉ l := hal
        simp [hxl]
      · simp [hxa, List.mem_cons]
    rw [hmap]

theorem coverRRSets_map (ns : List Nat) :
    ∀ (pool : List RRSet) (f : Nat → Nat), ns.Nodup →
      (∀ r ∈ pool, ∀ x ∈ r.nodes, x ∈ ns) →
      coverRRSets pool (ns.map (fun n => (n, f n))) =
        some (ns.map (fun n => (n, f n + countContaining pool n))) := by
  intro pool
  induction pool with
  | nil =>
    intro f hns _
    have hmap : ns.map (fun n => (n, f n + countContaining [] n)) =
        ns.map (fun n => (n, f n)) := by
      apply List.map_congr_left
      intro x _
      simp [countContaining]
    simp only [coverRRSets, hmap]
  | cons r rs ih =>
    intro f hns hmem
    have hsort_nodup : (r.nodes.sort (· ≤ ·)).Nodup := r.nodes.sort_nodup _
    have hsort_mem : ∀ x ∈ r.nodes.sort (· ≤ ·), x ∈ ns := by
      intro x hx
      exact hmem r (List.mem_cons_self _ _) x ((Finset.mem_sort _).mp hx)
    have hstep := coverNodes_map ns (r.nodes.sort (· ≤ ·)) f hns hsort_nodup hsort_mem
    simp only [coverRRSets, hstep]
    have hrec := ih (fun n => f n + (if n ∈ r.nodes.sort (· ≤ ·) then 1 else 0)) hns
      (fun x hx => hmem x (List.mem_cons_of_mem _ hx))
    rw [hrec]
    have hmap : ns.map (fun n =>
        (n, (f n + (if n ∈ r.nodes.sort (· ≤ ·) then 1 else 0)) + countContaining rs n)) =
        ns.map (fun n => (n, f n + countContaining (r :: rs) n)) := by
      apply List.map_congr_left
      intro x _
      have hms : (x ∈ r.nodes.sort (· ≤ ·)) ↔ x ∈ r.nodes := Finset.mem_sort _
      simp only [countContaining, List.countP_cons, decide_eq_true_eq]
      by_cases hxr : x ∈ r.nodes
      · simp only [hms, hxr, if_true, Prod.mk.injEq, true_and]
        omega
      · simp only [hms, hxr, if_false, Prod.mk.injEq, true_and]
        omega
    rw [hmap]

theorem sum_indicator_eq_card :
    ∀ (ns : List Nat) (S : Finset Nat), ns.Nodup → (∀ x ∈ S, x ∈ ns) →
      (ns.map (fun n => if n ∈ S then 1 else 0)).sum = S.card := by
  intro ns
  induction ns with
  | nil =>
    intro S _ hsub
    have : S = ∅ := by
      apply Finset.eq_empty_of_forall_not_mem
      intro x hx
      exact absurd (hsub x hx) (List.not_mem_nil _)
    simp [this]
  | cons a ns ih =>
    intro S hnd hsub
    have hna := (List.nodup_cons.mp hnd).1
    by_cases ha : a ∈ S
    · have htail : (ns.map (fun n => if n ∈ S then 1 else 0)).sum =
          (ns.map (fun n => if n ∈ S.erase a then 1 else 0)).sum := by
        congr 1
        apply List.map_congr_left
        intro x hx
        have hxa : x ≠ a := fun h => hna (h ▸ hx)
        simp [Finset.mem_erase, hxa]
      have hrec := ih (S.erase a) (List.nodup_cons.mp hnd).2 (fun x hx => by
        have hxS := Finset.mem_of_mem_erase hx
        have hxa := (Finset.mem_erase.mp hx).1
        rcases List.mem_cons.mp (hsub x hxS) with h | h
        · exact absurd h hxa
        · exact h)
      have hcard : (S.erase a).card + 1 = S.card := Finset.card_erase_add_one ha
      simp only [List.map_cons, List.sum_cons, if_pos ha, htail, hrec]
      omega
    · have hrec := ih S (List.nodup_cons.mp hnd).2 (fun x hx => by
        rcases List.mem_cons.mp (hsub x hx) with h | h
        · exact absurd (h ▸ hx) ha
        · exact h)
      simp only [List.map_cons, List.sum_cons, if_neg ha, hrec]
      omega

theorem sum_countContaining_eq_sum_card :
    ∀ (pool : List RRSet) (ns : List Nat), ns.Nodup →
      (∀ r ∈ pool, ∀ x ∈ r.nodes, x ∈ ns) →
      (ns.map (fun n => countContaining pool n)).sum =
        (pool.map (fun r => r.nodes.card)).sum := by
  intro pool
  induction pool with
  | nil =>
    intro ns _ _
    simp [countContaining]
  | cons r rs ih =>
    intro ns hnd hmem
    have hsplit : ∀ n : Nat, countContaining (r :: rs) n =
        (if n ∈ r.nodes then 1 else 0) + countContaining rs n := by
      intro n
      simp only [countContaining, List.countP_cons, decide_eq_true_eq]
      by_cases h : n ∈ r.nodes <;> simp [h] <;> omega
    have h1 : (ns.map (fun n => countContaining (r :: rs) n)).sum =
        (ns.map (fun n => (if n ∈ r.nodes then 1 else 0) + countContaining rs n)).sum := by
      congr 1
      exact List.map_congr_left (fun x _ => hsplit x)
    have h2 : (ns.map (fun n => (if n ∈ r.nodes then 1 else 0) + countContaining rs n)).sum =
        (ns.map (fun n => if n ∈ r.nodes then 1 else 0)).sum +
          (ns.map (fun n => countContaining rs n)).sum :=
      List.sum_map_add
    have h3 := sum_indicator_eq_card ns r.nodes hnd (hmem r (List.mem_cons_self _ _))
    have h4 := ih ns hnd (fun x hx => hmem x (List.mem_cons_of_mem _ hx))
    rw [h1, h2, h3, h4]
    simp [List.map_cons, List.sum_cons]

/-- C8: under the graph-membership precondition, `get_node_coverage` succeeds
and returns the map whose keys are exactly the graph's node list, each node
mapped to the number of RR sets containing it; and the coverage counts sum to
the sum of the pools' size fields. -/
theorem claim_C8_node_coverage (g : Graph) (pool : List RRSet)
    (hnd : g.nodes.Nodup)
    (hsub : ∀ r ∈ pool, ∀ x ∈ r.nodes, x ∈ g.nodes)
    (hsize : ∀ r ∈ pool, r.size = r.nodes.card) :
    get_node_coverage g pool =
      some (g.nodes.map (fun n => (n, countContaining pool n))) ∧
    (g.nodes.map (fun n => countContaining pool n)).sum =
      (pool.map (fun r => r.size)).sum := by
  constructor
  · have h := coverRRSets_map g.nodes pool (fun _ => 0) hnd hsub
    unfold get_node_coverage
    rw [h]
    congr 1
    apply List.map_congr_left
    intro x _
    simp
  · have h := sum_countContaining_eq_sum_card pool g.nodes hnd hsub
    rw [h]
    congr 1
    exact List.map_congr_left (fun r hr => (hsize r hr).symm)

/-- Witness for C8 at a concrete input. -/
theorem claim_C8_witness :
    exGraph.nodes.Nodup ∧
    (∀ r ∈ exPool, ∀ x ∈ r.nodes, x ∈ exGraph.nodes) ∧
    (∀ r ∈ exPool, r.size = r.nodes.card) ∧
    get_node_coverage exGraph exPool =
      some (exGraph.nodes.map (fun n => (n, countContaining exPool n))) ∧
    (exGraph.nodes.map (fun n => countContaining exPool n)).sum =
      (exPool.map (fun r => r.size)).sum :=
  ⟨by decide, by decide, by decide,
   claim_C8_node_coverage exGraph exPool (by decide) (by decide) (by decide)⟩

theorem icVisitPreds_subset (tbl : List ((Nat × Nat) × Rat)) (lib : RandomLib)
    (current : Nat) (N : Finset Nat) :
    ∀ (ps : List Nat) (v : Finset Nat) (q : List Nat) (s : Nat),
      v ⊆ N → (∀ p ∈ ps, p ∈ N) →
      (icVisitPreds tbl lib current ps (v, q, s)).1 ⊆ N := by
  intro ps
  induction ps with
  | nil => intro v q s hv _; simpa [icVisitPreds] using hv
  | cons p ps ih =>
    intro v q s hv hps
    have hps' : ∀ x ∈ ps, x ∈ N := fun x hx => hps x (List.mem_cons_of_mem _ hx)
    have hp : p ∈ N := hps p (List.mem_cons_self _ _)
    by_cases hvp : p ∈ v
    · simp only [icVisitPreds, hvp, if_true]
      exact ih v q s hv hps'
    · by_cases hd : (lib.nextUnit s).1 < edgeProbLookup tbl p current
      · simp only [icVisitPreds, hvp, hd, if_true, if_false]
        exact ih _ _ _ (Finset.insert_subset hp hv) hps'
      · simp only [icVisitPreds, hvp, hd, if_true, if_false]
        exact ih _ _ _ hv hps'

theorem icLoop_visited_subset (g : Graph) (tbl : List ((Nat × Nat) × Rat))
    (lib : RandomLib) (hec : g.EdgesClosed) :
    ∀ (v : Finset Nat) (q : List Nat) (s : Nat),
      v ⊆ g.nodes.toFinset → (icLoop g tbl lib v q s).1 ⊆ g.nodes.toFinset := by
  have hpred : ∀ c : Nat, ∀ p ∈ g.predecessors c, p ∈ g.nodes.toFinset := by
    intro c p hp
    unfold Graph.predecessors at hp
    rcases List.mem_map.mp hp with ⟨e, he, rfl⟩
    exact List.mem_toFinset.mpr (hec e (List.mem_of_mem_filter he)).1
  intro v q s
  induction v, q, s using icLoop.induct g tbl lib with
  | case1 v s => intro hv; simpa [icLoop] using hv
  | case2 v c rest s ih =>
    intro hv
    rw [icLoop]
    exact ih (icVisitPreds_subset tbl lib c _ (g.predecessors c) v rest s hv (hpred c))

theorem sampleKernel_nodes_subset (model : DiffusionModel) (g : Graph)
    (lib : RandomLib) (hec : g.EdgesClosed) (root seed s0 : Nat)
    (hroot : root ∈ g.nodes) :
    (sampleKernel model g lib root seed s0).1.nodes ⊆ g.nodes.toFinset := by
  have hic : (generate_single_rr_set_ic g lib root seed s0).1.nodes ⊆
      g.nodes.toFinset := by
    have hsub : ({root} : Finset Nat) ⊆ g.nodes.toFinset := by
      intro x hx
      rw [Finset.mem_singleton.mp hx]
      exact List.mem_toFinset.mpr hroot
    exact icLoop_visited_subset g (precompute_edge_probabilities g) lib hec
      {root} [root] (lib.seedFn seed) hsub
  cases model with
  | IC => exact hic
  | LT =>
    have heq : sampleKernel DiffusionModel.LT g lib root seed s0 =
        generate_single_rr_set_ic g lib root seed s0 := by
      show generate_single_rr_set_lt g lib root seed s0 = _
      unfold generate_single_rr_set_lt generate_single_rr_set_ic
      simp only [ltLoop_eq_icLoop]
    rw [heq]
    exact hic

theorem drawRootNodes_mem (g : Graph) (lib : RandomLib) (hg : g.nodes ≠ []) :
    ∀ (n s : Nat), ∀ r ∈ (drawRootNodes g lib n s).1, r ∈ g.nodes := by
  intro n
  induction n with
  | zero => intro s r hr; exact absurd hr (List.not_mem_nil _)
  | succ n ih =>
    intro s r hr
    have hlen : 0 < g.nodes.length := List.length_pos.mpr hg
    rcases List.mem_cons.mp hr with h | h
    · subst h
      have hmod : (lib.nextInt g.nodes.length s).1 % g.nodes.length <
          g.nodes.length := Nat.mod_lt _ hlen
      rw [List.getD_eq_getElem g.nodes 0 hmod]
      exact List.getElem_mem hmod
    · exact ih _ r h

theorem masterDraws_root_mem (g : Graph) (lib : RandomLib) (hg : g.nodes ≠ [])
    (random_seed theta : Nat) :
    ∀ t ∈ (masterDraws g lib random_seed theta).1, t.1 ∈ g.nodes := by
  rintro ⟨a, b⟩ ht
  have := List.of_mem_zip ht
  exact drawRootNodes_mem g lib hg theta _ a this.1

theorem runSequential_ok_members
    (K : Nat → Nat → Nat → RRSet × Nat) :
    ∀ (ts : List (Nat × Nat)) (s : Nat) (out : List RRSet × Nat),
      runSequential (fun root seed st => .ok (K root seed st)) ts s = .ok out →
      ∀ rr ∈ out.1, ∃ t ∈ ts, ∃ st, rr = (K t.1 t.2 st).1 := by
  intro ts
  induction ts with
  | nil =>
    intro s out hout rr hrr
    simp only [runSequential] at hout
    cases hout
    exact absurd hrr (List.not_mem_nil _)
  | cons t ts ih =>
    intro s out hout rr hrr
    simp only [runSequential] at hout
    cases hrec : runSequential (fun root seed st => .ok (K root seed st)) ts
        (K t.1 t.2 s).2 with
    | error e => rw [hrec] at hout; cases hout
    | ok rest =>
      rw [hrec] at hout
      cases hout
      rcases List.mem_cons.mp hrr with h | h
      · exact ⟨t, List.mem_cons_self _ _, s, h⟩
      · rcases ih _ rest hrec rr h with ⟨t', ht', st, hst⟩
        exact ⟨t', List.mem_cons_of_mem _ ht', st, hst⟩

theorem genPool_members (g : Graph) (lib : RandomLib) (model : DiffusionModel)
    (parallel_workers random_seed theta s0 : Nat) :
    ∀ rr ∈ genPool g lib model parallel_workers random_seed theta s0,
      ∃ root seed st, root ∈ g.nodes ∧
        rr = (sampleKernel model g lib root seed st).1 := by
  intro rr hrr
  unfold genPool generate_rr_sets generate_rr_sets_with at hrr
  by_cases hge : g.nodes.isEmpty
  · rw [if_pos hge] at hrr
    exact absurd hrr (List.not_mem_nil _)
  · have hge' : g.nodes.isEmpty = false := by
      cases h : g.nodes.isEmpty with
      | false => rfl
      | true => exact absurd h hge
    have hg : g.nodes ≠ [] := by
      intro h
      rw [h] at hge'
      simp at hge'
    rw [hge'] at hrr
    simp only [Bool.false_eq_true, if_false] at hrr
    by_cases hw : parallel_workers = 1
    · rw [if_pos hw] at hrr
      cases hseq : runSequential
          (fun root seed s => .ok (sampleKernel model g lib root seed s))
          (masterDraws g lib random_seed theta).1
          (masterDraws g lib random_seed theta).2 with
      | error e => rw [hseq] at hrr; exact absurd hrr (List.not_mem_nil _)
      | ok out =>
        rw [hseq] at hrr
        simp only at hrr
        rcases runSequential_ok_members (fun root seed st => sampleKernel model g lib root seed st)
            _ _ out hseq rr hrr with ⟨t, ht, st, hst⟩
        exact ⟨t.1, t.2, st, masterDraws_root_mem g lib hg random_seed theta t ht, hst⟩
    · rw [if_neg hw] at hrr
      simp only at hrr
      rw [runParallel_eq_filterMap] at hrr
      simp only at hrr
      rcases List.mem_filterMap.mp hrr with ⟨t, ht, hval⟩
      have hred : Option.map Prod.fst ((Except.ok (sampleKernel model g lib t.1 t.2
          (masterDraws g lib random_seed theta).2) :
          Except String (RRSet × Nat)).toOption) =
          some ((sampleKernel model g lib t.1 t.2
            (masterDraws g lib random_seed theta).2).1) := rfl
      rw [hred] at hval
      injection hval with hval
      exact ⟨t.1, t.2, (masterDraws g lib random_seed theta).2,
        masterDraws_root_mem g lib hg random_seed theta t ht, hval.symm⟩

theorem incKey_isSome_keys :
    ∀ (cov : List (Nat × Nat)) (k : Nat), k ∈ cov.map Prod.fst →
      ∃ cov2, incKey k cov = some cov2 ∧ cov2.map Prod.fst = cov.map Prod.fst := by
  intro cov
  induction cov with
  | nil => intro k hk; exact absurd hk (List.not_mem_nil _)
  | cons e es ih =>
    intro k hk
    by_cases hek : e.1 = k
    · exact ⟨(e.1, e.2 + 1) :: es, by simp [incKey, hek], by simp⟩
    · have hk' : k ∈ es.map Prod.fst := by
        rcases List.mem_cons.mp hk with h | h
        · exact absurd h.symm hek
        · exact h
      rcases ih k hk' with ⟨es2, hes2, hkeys⟩
      exact ⟨e :: es2, by simp [incKey, hek, hes2], by simp [hkeys]⟩

theorem coverNodes_isSome_keys :
    ∀ (ns : List Nat) (cov : List (Nat × Nat)),
      (∀ n ∈ ns, n ∈ cov.map Prod.fst) →
      ∃ cov2, coverNodes ns cov = some cov2 ∧
        cov2.map Prod.fst = cov.map Prod.fst := by
  intro ns
  induction ns with
  | nil => intro cov _; exact ⟨cov, rfl, rfl⟩
  | cons n ns ih =>
    intro cov hmem
    rcases incKey_isSome_keys cov n (hmem n (List.mem_cons_self _ _)) with
      ⟨cov1, hcov1, hkeys1⟩
    rcases ih cov1 (fun x hx => hkeys1 ▸ hmem x (List.mem_cons_of_mem _ hx)) with
      ⟨cov2, hcov2, hkeys2⟩
    exact ⟨cov2, by simp [coverNodes, hcov1, hcov2], hkeys2.trans hkeys1⟩

theorem coverRRSets_isSome_keys :
    ∀ (pool : List RRSet) (cov : List (Nat × Nat)),
      (∀ r ∈ pool, ∀ x ∈ r.nodes, x ∈ cov.map Prod.fst) →
      ∃ cov2, coverRRSets pool cov = some cov2 ∧
        cov2.map Prod.fst = cov.map Prod.fst := by
  intro pool
  induction pool with
  | nil => intro cov _; exact ⟨cov, rfl, rfl⟩
  | cons r rs ih =>
    intro cov hmem
    have hr : ∀ x ∈ r.nodes.sort (· ≤ ·), x ∈ cov.map Prod.fst := by
      intro x hx
      exact hmem r (List.mem_cons_self _ _) x ((Finset.mem_sort _).mp hx)
    rcases coverNodes_isSome_keys (r.nodes.sort (· ≤ ·)) cov hr with
      ⟨cov1, hcov1, hkeys1⟩
    rcases ih cov1 (fun r' hr' x hx =>
        hkeys1 ▸ hmem r' (List.mem_cons_of_mem _ hr') x hx) with
      ⟨cov2, hcov2, hkeys2⟩
    exact ⟨cov2, by simp [coverRRSets, hcov1, hcov2], hkeys2.trans hkeys1⟩

theorem get_node_coverage_isSome (g : Graph) (pool : List RRSet)
    (hsub : ∀ r ∈ pool, ∀ x ∈ r.nodes, x ∈ g.nodes) :
    (get_node_coverage g pool).isSome := by
  have hkeys : (g.nodes.map (fun n => (n, 0))).map Prod.fst = g.nodes := by
    rw [List.map_map]
    have h1 : g.nodes.map (Prod.fst ∘ fun n => (n, (0 : Nat))) = g.nodes.map id :=
      List.map_congr_left (fun a _ => rfl)
    rw [h1, List.map_id]
  rcases coverRRSets_isSome_keys pool (g.nodes.map (fun n => (n, 0)))
      (fun r hr x hx => by rw [hkeys]; exact hsub r hr x hx) with ⟨cov2, hcov2, _⟩
  unfold get_node_coverage
  rw [hcov2]
  rfl

theorem get_statistics_isSome_of_ne_nil (pool : List RRSet) (h : pool ≠ []) :
    (get_statistics pool).isSome := by
  cases pool with
  | nil => exact absurd rfl h
  | cons r rs => rfl

/-- C10: every RR set sampled from a root that is a graph node stays inside
the graph's node set; consequently every pool returned by `generate_rr_sets`
satisfies this, `get_node_coverage` succeeds on it (no `KeyError`), and
`get_statistics` succeeds whenever the pool is non-empty. -/
theorem claim_C10_generated_pool_wellformed (g : Graph) (lib : RandomLib)
    (model : DiffusionModel) (parallel_workers random_seed theta s0 : Nat)
    (hec : g.EdgesClosed) :
    (∀ root ∈ g.nodes, ∀ seed st : Nat,
      (sampleKernel model g lib root seed st).1.nodes ⊆ g.nodes.toFinset) ∧
    (∀ rr ∈ genPool g lib model parallel_workers random_seed theta s0,
      rr.nodes ⊆ g.nodes.toFinset) ∧
    (get_node_coverage g
      (genPool g lib model parallel_workers random_seed theta s0)).isSome ∧
    (genPool g lib model parallel_workers random_seed theta s0 ≠ [] →
      (get_statistics
        (genPool g lib model parallel_workers random_seed theta s0)).isSome) := by
  have hker : ∀ root ∈ g.nodes, ∀ seed st : Nat,
      (sampleKernel model g lib root seed st).1.nodes ⊆ g.nodes.toFinset :=
    fun root hroot seed st => sampleKernel_nodes_subset model g lib hec root seed st hroot
  have hpool : ∀ rr ∈ genPool g lib model parallel_workers random_seed theta s0,
      rr.nodes ⊆ g.nodes.toFinset := by
    intro rr hrr
    rcases genPool_members g lib model parallel_workers random_seed theta s0 rr hrr with
      ⟨root, seed, st, hroot, hval⟩
    rw [hval]
    exact hker root hroot seed st
  refine ⟨hker, hpool, ?_, get_statistics_isSome_of_ne_nil _⟩
  apply get_node_coverage_isSome
  intro r hr x hx
  exact List.mem_toFinset.mp (hpool r hr hx)

/-- Witness for C10 at a concrete input. -/
theorem claim_C10_witness :
    exGraph.EdgesClosed ∧
    (∀ rr ∈ genPool exGraph exLib DiffusionModel.IC 1 42 1 0,
      rr.nodes ⊆ exGraph.nodes.toFinset) ∧
    (get_node_coverage exGraph (genPool exGraph exLib DiffusionModel.IC 1 42 1 0)).isSome :=
  ⟨by decide,
   (claim_C10_generated_pool_wellformed exGraph exLib DiffusionModel.IC 1 42 1 0
     (by decide)).2.1,
   (claim_C10_generated_pool_wellformed exGraph exLib DiffusionModel.IC 1 42 1 0
     (by decide)).2.2.1⟩

end RIS
